import Mathlib

/-!
A shallow embedding of src/mds/SessionMap.cc: the in-memory state of one
rank's session map, its mutation and persistence entry points, and the
on-disk decode paths.  Definitions follow the C++ source; the few pieces
that live only in headers outside this snapshot are modelled from the
specification and carry a doc comment saying so.
-/

namespace SessionMapModel

/-- Session states, mirroring the Session.STATE_CLOSED .. STATE_KILLING
constants used by the source. -/
inductive SState
  | closed
  | opening
  | opened
  | closing
  | stale
  | killing
deriving DecidableEq, Repr

/-- Modelled from the spec: an EntityName is a stable, parseable identifier
made of a kind and a numeric id; entity_name_t itself is declared outside
this snapshot. -/
structure EntityName where
  kind : String
  num : Nat
deriving DecidableEq, Repr

/-- Textual form of an entity name: kind, a dot, then the decimal id. -/
def EntityName.render (n : EntityName) : String :=
  n.kind ++ "." ++ toString n.num

/-- Split a character list at its first dot, returning the pieces before and
after; fails when there is no dot. -/
def splitAtDot : List Char → Option (List Char × List Char)
  | [] => none
  | c :: rest =>
    if c = '.' then some ([], rest)
    else (splitAtDot rest).map (fun p => (c :: p.1, p.2))

/-- Decimal digit test on a character. -/
def isDigitChar (c : Char) : Bool :=
  48 ≤ c.toNat && c.toNat ≤ 57

/-- Value of a nonempty all-digit character list, most significant first. -/
def digitsVal (cs : List Char) : Option Nat :=
  if cs.isEmpty then none
  else if cs.all isDigitChar then
    some (cs.foldl (fun acc c => acc * 10 + (c.toNat - 48)) 0)
  else none

/-- Modelled from the spec: parsing inverts render and fails on any string
that is not of the kind-dot-decimal shape (entity_name_t.parse is outside
this snapshot). -/
def EntityName.parse (s : String) : Option EntityName :=
  match splitAtDot s.toList with
  | none => none
  | some p =>
    if p.1.isEmpty then none
    else (digitsVal p.2).map (fun v => EntityName.mk (String.mk p.1) v)

/-- One session row.  The persisted info payload beyond the entity name is
abstracted into a single data field; the preallocated-inode fields and the
projected version queue are kept because wipe_ino_prealloc, mark_projected
and mark_dirty touch them. -/
structure Session where
  name : EntityName
  state : SState := .closed
  stateSeq : Nat := 0
  data : Nat := 0
  preallocInos : List Nat := []
  usedInos : List Nat := []
  pvq : List Nat := []
  lastCapRenew : Option Nat := none
deriving DecidableEq, Repr

/-- Modelled from the spec: Session.set_state assigns the new state and bumps
the monotonic state_seq counter on every transition (Session is declared in
SessionMap.h, outside this snapshot). -/
def Session.setStateRaw (s : Session) (st : SState) : Session :=
  { s with state := st, stateSeq := s.stateSeq + 1 }

/-- Set-style insertion into a name list, as std::set.insert. -/
def insertName (n : EntityName) (l : List EntityName) : List EntityName :=
  if n ∈ l then l else n :: l

/-- Set-style erasure from a name list, as std::set.erase. -/
def eraseName (n : EntityName) (l : List EntityName) : List EntityName :=
  l.filter (fun x => x != n)

abbrev Sessions := List (EntityName × Session)

/-- Replace the session stored under a name, leaving other entries alone. -/
def updSessions (n : EntityName) (s : Session) (l : Sessions) : Sessions :=
  l.map (fun p => if p.1 = n then (n, s) else p)

/-- Propositional-test spelling of association lookup; proved equal to the
library lookup and easier to reason about. -/
def lookupS (n : EntityName) : Sessions → Option Session
  | [] => none
  | p :: rest => if p.1 = n then some p.2 else lookupS n rest

abbrev ByState := List (SState × List EntityName)

/-- Unlink a session name from every per-state list (item_session_list
remove_myself). -/
def byStateRemove (n : EntityName) (b : ByState) : ByState :=
  b.map (fun p => (p.1, p.2.filter (fun x => x != n)))

/-- Append a session name to the tail of the per-state list, creating the
list on demand as the by_state.count checks in the source do; pushing onto
an intrusive list first unlinks the item from wherever it currently is. -/
def byStatePush (st : SState) (n : EntityName) (b : ByState) : ByState :=
  let b1 := byStateRemove n b
  if (b1.lookup st).isSome then
    b1.map (fun p => if p.1 = st then (p.1, p.2 ++ [n]) else p)
  else
    b1 ++ [(st, [n])]

/-- Decode failures raised by the store codec. -/
inductive DecodeErr
  | malformedInput
  | endOfBuffer
deriving DecidableEq, Repr

/-- Modelled from the spec: get_or_add_session either obtains the existing
Session for the name or creates a fresh one in state Closed (it is declared
in SessionMap.h, outside this snapshot). -/
def getOrAddSession (l : Sessions) (n : EntityName) : Session × Sessions :=
  match l.lookup n with
  | some s => (s, l)
  | none =>
    let s : Session := { name := n }
    (s, l ++ [(n, s)])

/-- SessionMapStore.decode_values: each key is parsed back into an EntityName
(raising malformed_input on failure), the session is obtained or created, a
closed session is promoted to open, and the value is decoded into its info. -/
def decodeValues (l : Sessions) : List (String × Nat) → Except DecodeErr Sessions
  | [] => .ok l
  | (k, v) :: rest =>
    match EntityName.parse k with
    | none => .error .malformedInput
    | some n =>
      let p := getOrAddSession l n
      let s1 := if p.1.state = .closed then p.1.setStateRaw .opened else p.1
      decodeValues (updSessions n { s1 with data := v } p.2) rest

/-- A composed but not yet completed object-store mutation: the version
recorded at composition time, the dirty set staged into it, the omap key
upserts, and the omap key removals. -/
structure PendingOp where
  version : Nat
  stagedDirty : List EntityName
  toSet : List (String × Nat)
  toRemove : List String
deriving DecidableEq, Repr

/-- The live SessionMap of one rank: primary index, by_state secondary index,
dirty and tombstone overlays, the four version counters, commit waiters,
in-flight composed store operations (completed in submission order), and the
log of waiters already released. -/
structure SMState where
  sessions : Sessions := []
  byState : ByState := []
  dirty : List EntityName := []
  nullSessions : List EntityName := []
  version : Nat := 0
  projected : Nat := 0
  committing : Nat := 0
  committed : Nat := 0
  commitWaiters : List (Nat × List Nat) := []
  pending : List PendingOp := []
  fired : List Nat := []
deriving DecidableEq, Repr

/-- Append a waiter to the list filed under a version (commit_waiters is a
map from version to completion list). -/
def enqueueWaiter (v : Nat) (w : Nat) (l : List (Nat × List Nat)) :
    List (Nat × List Nat) :=
  if (l.lookup v).isSome then
    l.map (fun p => if p.1 = v then (p.1, p.2 ++ [w]) else p)
  else
    l ++ [(v, [w])]

/-- The four states a dirty session is serialized in: is_open, is_closing,
is_stale or is_killing. -/
def activeState : SState → Bool
  | .opened => true
  | .closing => true
  | .stale => true
  | .killing => true
  | _ => false

/-- The omap upserts staged by save: one rendered-name key per dirty session
whose state is active; a dirty name missing from the session map is the null
dereference of session_map[name] in the source, modelled as failure. -/
def composeSet (m : SMState) : List EntityName → Option (List (String × Nat))
  | [] => some []
  | n :: rest =>
    match m.sessions.lookup n with
    | none => none
    | some s =>
      match composeSet m rest with
      | none => none
      | some tl =>
        if activeState s.state then some ((n.render, s.data) :: tl) else some tl

namespace SMState

/-- SessionMap.save: when needv is nonzero and committing already covers it,
the completion is filed under the in-flight committing version and nothing
else happens (the source asserts committing exceeds committed there, modelled
as failure when violated); otherwise the completion is filed under version,
committing is set to version, one store operation is composed from the dirty
and null overlays, and both overlays are cleared before submission. -/
def save (m : SMState) (w : Nat) (needv : Nat) : Option SMState :=
  if 0 < needv ∧ needv ≤ m.committing then
    if m.committed < m.committing then
      some { m with commitWaiters := enqueueWaiter m.committing w m.commitWaiters }
    else none
  else
    match composeSet m m.dirty with
    | none => none
    | some ts =>
      some { m with
        commitWaiters := enqueueWaiter m.version w m.commitWaiters,
        committing := m.version,
        pending := m.pending ++
          [⟨m.version, m.dirty, ts, m.nullSessions.map EntityName.render⟩],
        dirty := [],
        nullSessions := [] }

/-- SessionMap._save_finish for the oldest in-flight mutation: committed is
set to the version recorded at composition, and the waiters filed under that
version fire and are erased. -/
def saveFinish (m : SMState) : Option SMState :=
  match m.pending with
  | [] => none
  | op :: rest =>
    some { m with
      pending := rest,
      committed := op.version,
      fired := m.fired ++ (m.commitWaiters.lookup op.version).getD [],
      commitWaiters := m.commitWaiters.filter (fun p => p.1 != op.version) }

/-- SessionMap._mark_dirty: when the dirty set has reached the keys-per-op
cap a preemptive save with a no-op completion (waiter id zero) runs first,
and only then is the name inserted. -/
def markDirtyInner (m : SMState) (K : Nat) (n : EntityName) : Option SMState :=
  if K ≤ m.dirty.length then
    (m.save 0 m.version).map (fun m1 => { m1 with dirty := insertName n m1.dirty })
  else
    some { m with dirty := insertName n m.dirty }

/-- SessionMap.mark_dirty: _mark_dirty, bump version, pop the projected
version queue.  Modelled from the spec: the popped oldest entry of the FIFO
of projected versions awaiting commit is the version now being committed, so
it must equal the freshly bumped version (Session.pop_pv is declared in
SessionMap.h, outside this snapshot). -/
def markDirty (m : SMState) (K : Nat) (n : EntityName) : Option SMState :=
  match m.sessions.lookup n with
  | none => none
  | some s =>
    if s.pvq.head? = some (m.version + 1) then
      (m.markDirtyInner K n).map (fun m1 =>
        { m1 with
          version := m1.version + 1,
          sessions := updSessions n { s with pvq := s.pvq.tail } m1.sessions })
    else none

/-- SessionMap.mark_projected: bump projected and push it onto the session's
projected version queue. -/
def markProjected (m : SMState) (n : EntityName) : Option SMState :=
  match m.sessions.lookup n with
  | none => none
  | some s =>
    some { m with
      projected := m.projected + 1,
      sessions := updSessions n { s with pvq := s.pvq ++ [m.projected + 1] } m.sessions }

/-- SessionMap.replay_advance_version: bump version and set projected to it. -/
def replayAdvanceVersion (m : SMState) : SMState :=
  { m with version := m.version + 1, projected := m.version + 1 }

/-- SessionMap.replay_dirty_session: _mark_dirty then replay_advance_version. -/
def replayDirtySession (m : SMState) (K : Nat) (n : EntityName) : Option SMState :=
  match m.sessions.lookup n with
  | none => none
  | some _ => (m.markDirtyInner K n).map replayAdvanceVersion

/-- SessionMap.add_session: asserts the name is absent, inserts, and links
the session into the by_state list for its state.  Note that null_sessions
is left untouched. -/
def addSession (m : SMState) (s : Session) : Option SMState :=
  if (m.sessions.lookup s.name).isSome then none
  else
    some { m with
      sessions := m.sessions ++ [(s.name, s)],
      byState := byStatePush s.state s.name m.byState }

/-- SessionMap.remove_session: unlink from by_state, erase from sessions and
from dirty_sessions, and insert the name into null_sessions. -/
def removeSession (m : SMState) (n : EntityName) : Option SMState :=
  match m.sessions.lookup n with
  | none => none
  | some _ =>
    some { m with
      sessions := m.sessions.filter (fun p => p.1 != n),
      byState := byStateRemove n m.byState,
      dirty := eraseName n m.dirty,
      nullSessions := insertName n m.nullSessions }

/-- SessionMap.wipe: remove every session (each removal erasing its dirty
entry and inserting a tombstone), then set version to the bumped projected
counter. -/
def wipe (m : SMState) : SMState :=
  let names := m.sessions.map Prod.fst
  { m with
    sessions := [],
    byState := names.foldl (fun b n => byStateRemove n b) m.byState,
    dirty := m.dirty.filter (fun n => !(names.contains n)),
    nullSessions := names.foldl (fun l n => insertName n l) m.nullSessions,
    projected := m.projected + 1,
    version := m.projected + 1 }

/-- SessionMap.wipe_ino_prealloc: clear the per-session inode bookkeeping,
then set projected to the bumped version counter. -/
def wipeInoPrealloc (m : SMState) : SMState :=
  { m with
    sessions := m.sessions.map (fun p =>
      (p.1, { p.2 with preallocInos := [], usedInos := [] })),
    version := m.version + 1,
    projected := m.version + 1 }

/-- SessionMap.set_state: only a genuine transition assigns the new state,
bumps state_seq and moves the session to the tail of the target by_state
list; the current state_seq is returned either way. -/
def setState (m : SMState) (n : EntityName) (st : SState) : Option (Nat × SMState) :=
  match m.sessions.lookup n with
  | none => none
  | some s =>
    if s.state = st then some (s.stateSeq, m)
    else
      let s1 := s.setStateRaw st
      some (s1.stateSeq,
        { m with
          sessions := updSessions n s1 m.sessions,
          byState := byStatePush st n m.byState })

end SMState

/-- The trace alphabet: the mutation and persistence entry points of the
session map, with save completions delivered in submission order. -/
inductive Op
  | add (s : Session)
  | remove (n : EntityName)
  | markProjected (n : EntityName)
  | markDirty (n : EntityName)
  | replayDirtySession (n : EntityName)
  | replayAdvanceVersion
  | wipe
  | wipeInoPrealloc
  | save (w : Nat) (needv : Nat)
  | saveFinish
deriving Repr

/-- One operation against the map; none models a failed assertion or an
undefined access. -/
def step (K : Nat) (m : SMState) : Op → Option SMState
  | .add s => m.addSession s
  | .remove n => m.removeSession n
  | .markProjected n => m.markProjected n
  | .markDirty n => m.markDirty K n
  | .replayDirtySession n => m.replayDirtySession K n
  | .replayAdvanceVersion => some m.replayAdvanceVersion
  | .wipe => some m.wipe
  | .wipeInoPrealloc => some m.wipeInoPrealloc
  | .save w needv => m.save w needv
  | .saveFinish => m.saveFinish

/-- Run a whole trace of operations. -/
def run (K : Nat) (m : SMState) : List Op → Option SMState
  | [] => some m
  | op :: ops =>
    match step K m op with
    | none => none
    | some m1 => run K m1 ops

/-- The freshly constructed map: everything empty, all counters zero. -/
def init : SMState := {}

/-- The journal-driven mutation subset: add (of a freshly constructed
session), remove, projection, mark_dirty under the projected-queue
discipline, save and save completion. -/
def Op.basic : Op → Bool
  | .add s => s.pvq.isEmpty
  | .remove _ => true
  | .markProjected _ => true
  | .markDirty _ => true
  | .save _ _ => true
  | .saveFinish => true
  | _ => false

/-- The two legacy on-disk variants, discriminated by the first decoded word:
the sentinel-framed variant carries the version and name-keyed records, the
old count-prefixed variant carries the version, an upper-bound count and
info-prefixed records. -/
inductive LegacyBlob
  | sentinel (version : Nat) (records : List (EntityName × Nat))
  | oldFormat (version : Nat) (bound : Nat) (records : List (EntityName × Nat))
deriving Repr

/-- One record of the old count-prefixed variant: decode the info, recover an
already-present name by re-decoding into the existing session, set the state
to open unconditionally, and stamp last_cap_renew with the current time. -/
def oldFormatStep (now : Nat) (l : Sessions) (r : EntityName × Nat) : Sessions :=
  match l.lookup r.1 with
  | some s =>
    updSessions r.1
      { ({ s with data := r.2 }).setStateRaw .opened with lastCapRenew := some now } l
  | none =>
    let s := (({ name := r.1, data := r.2 } : Session)).setStateRaw .opened
    l ++ [(r.1, { s with lastCapRenew := some now })]

/-- One record of the sentinel-framed variant: obtain or create the session,
promote a closed one to open, and decode the info payload.  The current time
is never written here; the local now of the source is unused on this path. -/
def sentinelStep (l : Sessions) (r : EntityName × Nat) : Sessions :=
  let p := getOrAddSession l r.1
  let s1 := if p.1.state = .closed then p.1.setStateRaw .opened else p.1
  updSessions r.1 { s1 with data := r.2 } p.2

/-- SessionMapStore.decode_legacy: dispatch on the first decoded word and
replay the records of the chosen variant, yielding the decoded version and
session table. -/
def decodeLegacyStore (now : Nat) (l : Sessions) : LegacyBlob → Nat × Sessions
  | .sentinel v records => (v, records.foldl sentinelStep l)
  | .oldFormat v bound records =>
    (v, (records.take bound).foldl (oldFormatStep now) l)

/-- Lexicographic strict order on character lists, by code point, matching
the byte order std::map keys are stored in. -/
def charListLt : List Char → List Char → Bool
  | [], [] => false
  | [], _ :: _ => true
  | _ :: _, [] => false
  | a :: as, b :: bs =>
    if a.toNat < b.toNat then true
    else if a.toNat = b.toNat then charListLt as bs
    else false

/-- Lexicographic strict order on strings. -/
def strLt (a b : String) : Bool :=
  charListLt a.toList b.toList

/-- The ordered batched key-range read: up to K keys strictly greater than
the start key, in key order (the omap of the object is sorted). -/
def omapGetVals (omap : List (String × Nat)) (startAfter : String) (K : Nat) :
    List (String × Nat) :=
  (omap.filter (fun kv => strLt startAfter kv.1)).take K

/-- Outcome of a modern load: the decoded table, the rebuilt by_state index,
the header version, the number of object reads issued, the number of times
the load waiters were released, and the start key used by each read. -/
structure LoadResult where
  sessions : Sessions := []
  byState : ByState := []
  version : Nat := 0
  reads : Nat := 0
  released : Nat := 0
  startKeys : List String := []
deriving DecidableEq, Repr

/-- Rebuild by_state from scratch, one entry per live session. -/
def rebuildByState (l : Sessions) : ByState :=
  l.foldl (fun b p => byStatePush p.2.state p.1 b) []

/-- SessionMap._load_finish, iterated: decode the batch, and either issue a
continuation read starting from the last key of the batch when the batch
holds exactly K entries, or finish by rebuilding by_state and releasing the
load waiters.  Fuel bounds the recursion; a decode failure is fatal. -/
def loadLoop (K : Nat) (omap : List (String × Nat)) :
    Nat → String → LoadResult → Option LoadResult
  | 0, _, _ => none
  | fuel + 1, startAfter, st =>
    let batch := omapGetVals omap startAfter K
    match decodeValues st.sessions batch with
    | .error _ => none
    | .ok sess1 =>
      if batch.length = K then
        match batch.getLast? with
        | none => none
        | some last =>
          loadLoop K omap fuel last.1
            { st with sessions := sess1, reads := st.reads + 1,
                      startKeys := st.startKeys ++ [last.1] }
      else
        some { st with sessions := sess1,
                       byState := rebuildByState sess1,
                       released := st.released + 1 }

/-- A modern load against an object whose omap header decoded to the given
version: the initial compound read fetches the header and the first batch,
and further batches follow loadLoop. -/
def loadModern (K : Nat) (headerVersion : Nat) (omap : List (String × Nat)) :
    Option LoadResult :=
  loadLoop K omap (omap.length + 2) ""
    { version := headerVersion, reads := 1, startKeys := [""] }

/-- The version-counter chain maintained on the journal-driven subset. -/
def chainOk (m : SMState) : Prop :=
  m.committed ≤ m.committing ∧ m.committing ≤ m.version ∧ m.version ≤ m.projected

/-- Every entry of every projected version queue is bounded by projected. -/
def pvOk (m : SMState) : Prop :=
  ∀ p ∈ m.sessions, ∀ e ∈ p.2.pvq, e ≤ m.projected

/-- In-flight composed operations carry non-decreasing versions bounded
between committed and committing. -/
def pendingOk (m : SMState) : Prop :=
  m.pending.Pairwise (fun a b => a.version ≤ b.version) ∧
  ∀ p ∈ m.pending, m.committed ≤ p.version ∧ p.version ≤ m.committing

/-- The dirty overlay stays within the keys-per-op cap, a nonempty overlay
means version is already ahead of committing, and every composed operation
staged at most K dirty names. -/
def dirtyOk (K : Nat) (m : SMState) : Prop :=
  m.dirty.length ≤ K ∧ (m.dirty ≠ [] → m.committing < m.version) ∧
  ∀ p ∈ m.pending, p.stagedDirty.length ≤ K

/-- The reachable-state invariant of the journal-driven subset. -/
def Inv (K : Nat) (m : SMState) : Prop :=
  chainOk m ∧ pvOk m ∧ pendingOk m ∧ (1 ≤ K → dirtyOk K m)

/-- Concrete client names used by the executable scenarios. -/
def cn1 : EntityName := ⟨"client", 1⟩

def cn2 : EntityName := ⟨"client", 2⟩

def cn3 : EntityName := ⟨"client", 3⟩

def cn4 : EntityName := ⟨"client", 4⟩

/-- A freshly constructed session for a name, as client setup produces it. -/
def freshSession (n : EntityName) : Session :=
  { name := n }

/-- Remove-then-recreate, then re-dirty: add, project, dirty, remove, re-add
with the same entity name, project, dirty again, all before any save. -/
def traceRemoveRecreateDirty : List Op :=
  [.add (freshSession cn1), .markProjected cn1, .markDirty cn1, .remove cn1,
   .add (freshSession cn1), .markProjected cn1, .markDirty cn1]

/-- Remove-then-recreate: add, project, dirty, remove, re-add with the same
entity name, before any save. -/
def traceRemoveRecreate : List Op :=
  [.add (freshSession cn1), .markProjected cn1, .markDirty cn1, .remove cn1,
   .add (freshSession cn1)]

/-- A counter scenario: four sessions projected once each, one committed,
then wipe_ino_prealloc clamps projected down, two stale projections commit,
and wipe clamps version down. -/
def traceCounters : List Op :=
  [.add (freshSession cn1), .add (freshSession cn2), .add (freshSession cn3),
   .add (freshSession cn4),
   .markProjected cn1, .markProjected cn2, .markProjected cn3, .markProjected cn4,
   .markDirty cn1, .wipeInoPrealloc, .markDirty cn3, .markDirty cn4, .wipe]

/-- Two projections then replay_advance_version. -/
def traceReplayAdvance : List Op :=
  [.add (freshSession cn1), .markProjected cn1, .markProjected cn1,
   .replayAdvanceVersion]

/-- Two projections then replay_dirty_session. -/
def traceReplayDirty : List Op :=
  [.add (freshSession cn1), .markProjected cn1, .markProjected cn1,
   .replayDirtySession cn1]

/-- Three sessions marked dirty in rapid succession at a cap of two. -/
def traceThreeDirty : List Op :=
  [.add (freshSession cn1), .add (freshSession cn2), .add (freshSession cn3),
   .markProjected cn1, .markProjected cn2, .markProjected cn3,
   .markDirty cn1, .markDirty cn2, .markDirty cn3]

/-- The outcome of the three-dirty scenario at a cap of two. -/
def threeDirtyResult : SMState :=
  (run 2 init traceThreeDirty).getD init

/-- The object omap of the paged-load scenario: four client keys. -/
def store4 : List (String × Nat) :=
  [("client.1", 11), ("client.2", 12), ("client.3", 13), ("client.4", 14)]

/-- A map state with two staged dirty sessions, used to exercise the
preemptive save of _mark_dirty at a cap of two. -/
def twoDirtyState : SMState :=
  { sessions := [(cn1, { name := cn1, state := .opened }),
                 (cn2, { name := cn2, state := .opened })],
    dirty := [cn1, cn2], version := 5, projected := 5,
    committing := 2, committed := 1 }

/-- The outcome of _mark_dirty on the third name at a cap of two. -/
def twoDirtyAfter : SMState :=
  (twoDirtyState.markDirtyInner 2 cn3).getD init

/-- The state produced by adding one fresh session to the initial map. -/
def addedOne : SMState :=
  (init.addSession (freshSession cn1)).getD init

/-- A map state with a commit in flight: committing ahead of committed. -/
def inflightState : SMState :=
  { committing := 3, committed := 1, version := 3, projected := 3 }

/-- A map state ready to compose a save: one active and one closed dirty
session, one tombstone. -/
def composeState : SMState :=
  { sessions := [(cn1, { name := cn1, state := .opened, data := 9 }),
                 (cn2, { name := cn2, state := .closed, data := 8 })],
    dirty := [cn1, cn2], nullSessions := [cn3],
    version := 4, projected := 4, committing := 2, committed := 2 }

/-- The state composeState reaches after composing a save. -/
def composedState : SMState :=
  (composeState.save 7 0).getD init

/-- A stale session with a nonzero state sequence. -/
def staleSession : Session :=
  { name := cn1, state := .stale, stateSeq := 6 }

/-- A one-session map used by the no-op set_state witness. -/
def oneSessionState : SMState :=
  { sessions := [(cn1, staleSession)] }

/-- The operation composeState stages: recorded at version four, carrying the
two staged dirty names, the single active upsert and the single removal. -/
def composedOp : PendingOp :=
  ⟨4, [cn1, cn2], [("client.1", 9)], ["client.3"]⟩

/-- The omap content of the decode_values witness. -/
def valsGood : List (String × Nat) :=
  [("client.1", 11), ("client.2", 12)]

theorem lookup_mem {α β : Type} [BEq α] [LawfulBEq α] {n : α} {s : β} :
    ∀ {l : List (α × β)}, l.lookup n = some s → (n, s) ∈ l := by
  intro l
  induction l with
  | nil => intro h; simp at h
  | cons p rest ih =>
    intro h
    cases p with
    | mk k v =>
      rw [List.lookup_cons] at h
      by_cases he : n == k
      · rw [he] at h
        have hn : n = k := eq_of_beq he
        have hs : v = s := by simpa using h
        subst hn
        subst hs
        exact List.mem_cons_self _ _
      · rw [Bool.of_not_eq_true he] at h
        exact List.mem_cons_of_mem _ (ih h)

theorem insertName_length (n : EntityName) (l : List EntityName) :
    (insertName n l).length ≤ l.length + 1 := by
  unfold insertName
  split
  · exact Nat.le_succ _
  · simp

theorem insertName_ne_nil (n : EntityName) (l : List EntityName) :
    insertName n l ≠ [] := by
  unfold insertName
  split
  · intro he
    subst he
    simp_all
  · simp

theorem eraseName_length (n : EntityName) (l : List EntityName) :
    (eraseName n l).length ≤ l.length :=
  List.length_filter_le _ _

/-- Inversion of save on the collapse branch: committing already covers the
requested version, so the waiter is filed under committing and nothing else
changes; the asserted strict committed-below-committing bound holds. -/
theorem save_inflight {m : SMState} {w needv : Nat} {m1 : SMState}
    (hbr : 0 < needv ∧ needv ≤ m.committing)
    (h : m.save w needv = some m1) :
    m.committed < m.committing ∧
    m1 = { m with commitWaiters := enqueueWaiter m.committing w m.commitWaiters } := by
  unfold SMState.save at h
  rw [if_pos hbr] at h
  by_cases hc : m.committed < m.committing
  · rw [if_pos hc] at h
    injection h with h
    exact ⟨hc, h.symm⟩
  · rw [if_neg hc] at h
    exact absurd h (by simp)

/-- Inversion of save on the composing branch: the overlays are staged into a
fresh pending operation recorded at the current version, the waiter is filed
under version, committing is set to version, and both overlays are cleared. -/
theorem save_composing {m : SMState} {w needv : Nat} {m1 : SMState}
    (hbr : ¬(0 < needv ∧ needv ≤ m.committing))
    (h : m.save w needv = some m1) :
    ∃ ts, composeSet m m.dirty = some ts ∧
      m1 = { m with
        commitWaiters := enqueueWaiter m.version w m.commitWaiters,
        committing := m.version,
        pending := m.pending ++
          [⟨m.version, m.dirty, ts, m.nullSessions.map EntityName.render⟩],
        dirty := [],
        nullSessions := [] } := by
  unfold SMState.save at h
  rw [if_neg hbr] at h
  cases hcs : composeSet m m.dirty with
  | none => rw [hcs] at h; exact absurd h (by simp)
  | some ts =>
    rw [hcs] at h
    injection h with h
    exact ⟨ts, rfl, h.symm⟩

/-- Both branches of save preserve the invariant, leave version, projected,
committed and the session table alone, and never decrease committing. -/
theorem save_inv {K : Nat} {m : SMState} {w needv : Nat} {m1 : SMState}
    (hI : Inv K m) (h : m.save w needv = some m1) :
    Inv K m1 ∧ m1.version = m.version ∧ m1.projected = m.projected ∧
    m1.committed = m.committed ∧ m1.sessions = m.sessions ∧
    m.committing ≤ m1.committing := by
  obtain ⟨hch, hpv, hpend, hdk⟩ := hI
  by_cases hbr : 0 < needv ∧ needv ≤ m.committing
  · obtain ⟨hlt, rfl⟩ := save_inflight hbr h
    exact ⟨⟨hch, hpv, hpend, hdk⟩, rfl, rfl, rfl, rfl, le_refl _⟩
  · obtain ⟨ts, hcs, rfl⟩ := save_composing hbr h
    obtain ⟨h1, h2, h3⟩ := hch
    refine ⟨⟨⟨le_trans h1 h2, le_refl _, h3⟩, hpv, ?_, ?_⟩, rfl, rfl, rfl, rfl, h2⟩
    · constructor
      · rw [List.pairwise_append]
        refine ⟨hpend.1, by simp, ?_⟩
        intro a ha b hb
        simp only [List.mem_singleton] at hb
        subst hb
        exact le_trans (hpend.2 a ha).2 h2
      · intro p hp
        rw [List.mem_append] at hp
        cases hp with
        | inl hp => exact ⟨(hpend.2 p hp).1, le_trans (hpend.2 p hp).2 h2⟩
        | inr hp =>
          simp only [List.mem_singleton] at hp
          subst hp
          exact ⟨le_trans h1 h2, le_refl _⟩
    · intro hK
      obtain ⟨hd1, _, hd3⟩ := hdk hK
      refine ⟨by simp, by simp, ?_⟩
      intro p hp
      rw [List.mem_append] at hp
      cases hp with
      | inl hp => exact hd3 p hp
      | inr hp =>
        simp only [List.mem_singleton] at hp
        subst hp
        exact hd1

/-- The preemptive-save-then-insert shape of _mark_dirty preserves everything
the invariant tracks except the second dirty clause, which its callers
restore by bumping version. -/
theorem markDirtyInner_inv {K : Nat} {m : SMState} {n : EntityName} {m1 : SMState}
    (hI : Inv K m) (h : m.markDirtyInner K n = some m1) :
    chainOk m1 ∧ pvOk m1 ∧ pendingOk m1 ∧
    m1.version = m.version ∧ m1.projected = m.projected ∧
    m1.committed = m.committed ∧ m1.sessions = m.sessions ∧
    m.committing ≤ m1.committing ∧ m1.committing ≤ m.version ∧
    (1 ≤ K → m1.dirty.length ≤ K ∧ ∀ p ∈ m1.pending, p.stagedDirty.length ≤ K) := by
  have hch := hI.1
  unfold SMState.markDirtyInner at h
  by_cases hK : K ≤ m.dirty.length
  · rw [if_pos hK] at h
    cases hs : m.save 0 m.version with
    | none => rw [hs] at h; exact absurd h (by simp)
    | some ms =>
      rw [hs] at h
      simp only [Option.map_some'] at h
      injection h with h
      subst h
      obtain ⟨⟨hch1, hpv1, hpend1, hdk1⟩, hv, hp, hcd, hss, hcm⟩ := save_inv hI hs
      refine ⟨hch1, hpv1, ?_, hv, hp, hcd, hss, hcm, hv ▸ hch1.2.1, ?_⟩
      · exact ⟨hpend1.1, fun p hp => hpend1.2 p hp⟩
      · intro hone
        have hbr : ¬(0 < m.version ∧ m.version ≤ m.committing) := by
          intro hc
          have hne : m.dirty ≠ [] := by
            intro he
            rw [he] at hK
            simp only [List.length_nil] at hK
            omega
          exact absurd hc.2 (not_le_of_lt ((hI.2.2.2 hone).2.1 hne))
        obtain ⟨ts, hcs, hms⟩ := save_composing hbr hs
        subst hms
        refine ⟨?_, (hdk1 hone).2.2⟩
        show (insertName n []).length ≤ K
        exact le_trans (insertName_length n []) (by simpa using hone)
  · rw [if_neg hK] at h
    injection h with h
    subst h
    obtain ⟨hch1, hch2, hch3⟩ := hch
    refine ⟨⟨hch1, hch2, hch3⟩, hI.2.1, hI.2.2.1, rfl, rfl, rfl, rfl, le_refl _, hch2, ?_⟩
    intro hone
    refine ⟨le_trans (insertName_length n _) (by omega), (hI.2.2.2 hone).2.2⟩

theorem mem_updSessions {n : EntityName} {s : Session} {l : Sessions}
    {q : EntityName × Session} (hq : q ∈ updSessions n s l) :
    q = (n, s) ∨ q ∈ l := by
  unfold updSessions at hq
  rw [List.mem_map] at hq
  obtain ⟨p, hp, he⟩ := hq
  by_cases hn : p.1 = n
  · rw [if_pos hn] at he
    exact Or.inl he.symm
  · rw [if_neg hn] at he
    subst he
    exact Or.inr hp

/-- Every journal-driven operation preserves the reachable-state invariant
and never decreases any of the four counters. -/
theorem step_inv {K : Nat} {m : SMState} {op : Op} {m1 : SMState}
    (hb : op.basic = true) (hI : Inv K m) (h : step K m op = some m1) :
    Inv K m1 ∧ m.committed ≤ m1.committed ∧ m.committing ≤ m1.committing ∧
    m.version ≤ m1.version ∧ m.projected ≤ m1.projected := by
  obtain ⟨hch, hpv, hpend, hdk⟩ := hI
  cases op with
  | replayDirtySession n => simp [Op.basic] at hb
  | replayAdvanceVersion => simp [Op.basic] at hb
  | wipe => simp [Op.basic] at hb
  | wipeInoPrealloc => simp [Op.basic] at hb
  | add s =>
    have hpvq : s.pvq = [] := by simpa [Op.basic] using hb
    simp only [step] at h
    unfold SMState.addSession at h
    by_cases hl : (m.sessions.lookup s.name).isSome
    · rw [if_pos hl] at h
      exact absurd h (by simp)
    · rw [if_neg hl] at h
      injection h with h
      subst h
      refine ⟨⟨hch, ?_, hpend, hdk⟩, le_refl _, le_refl _, le_refl _, le_refl _⟩
      intro q hq e he
      rw [List.mem_append] at hq
      cases hq with
      | inl hq => exact hpv q hq e he
      | inr hq =>
        simp only [List.mem_singleton] at hq
        subst hq
        rw [hpvq] at he
        exact absurd he (by simp)
  | remove n =>
    simp only [step] at h
    unfold SMState.removeSession at h
    cases hl : m.sessions.lookup n with
    | none => rw [hl] at h; exact absurd h (by simp)
    | some s =>
      rw [hl] at h
      injection h with h
      subst h
      refine ⟨⟨hch, ?_, hpend, ?_⟩, le_refl _, le_refl _, le_refl _, le_refl _⟩
      · intro q hq e he
        exact hpv q (List.mem_of_mem_filter hq) e he
      · intro hone
        obtain ⟨hd1, hd2, hd3⟩ := hdk hone
        refine ⟨le_trans (eraseName_length n _) hd1, ?_, hd3⟩
        intro hne
        apply hd2
        intro he
        rw [he] at hne
        exact hne rfl
  | markProjected n =>
    simp only [step] at h
    unfold SMState.markProjected at h
    cases hl : m.sessions.lookup n with
    | none => rw [hl] at h; exact absurd h (by simp)
    | some s =>
      rw [hl] at h
      injection h with h
      subst h
      obtain ⟨hc1, hc2, hc3⟩ := hch
      refine ⟨⟨⟨hc1, hc2, le_trans hc3 (Nat.le_succ _)⟩, ?_, hpend, ?_⟩,
        le_refl _, le_refl _, le_refl _, Nat.le_succ _⟩
      · intro q hq e he
        cases mem_updSessions hq with
        | inl hq1 =>
          subst hq1
          simp only at he
          rw [List.mem_append] at he
          cases he with
          | inl he => exact le_trans (hpv (n, s) (lookup_mem hl) e he) (Nat.le_succ _)
          | inr he =>
            simp only [List.mem_singleton] at he
            subst he
            exact le_refl _
        | inr hq1 => exact le_trans (hpv q hq1 e he) (Nat.le_succ _)
      · intro hone
        exact hdk hone
  | markDirty n =>
    simp only [step] at h
    unfold SMState.markDirty at h
    cases hl : m.sessions.lookup n with
    | none => rw [hl] at h; exact absurd h (by simp)
    | some s =>
      rw [hl] at h
      dsimp only at h
      by_cases hhd : s.pvq.head? = some (m.version + 1)
      · rw [if_pos hhd] at h
        cases hmi : m.markDirtyInner K n with
        | none => rw [hmi] at h; exact absurd h (by simp)
        | some mi =>
          rw [hmi] at h
          simp only [Option.map_some'] at h
          injection h with h
          subst h
          obtain ⟨hch1, hpv1, hpend1, hv, hp, hcd, hss, hcm1, hcm2, hdd⟩ :=
            markDirtyInner_inv ⟨hch, hpv, hpend, hdk⟩ hmi
          have hvp : m.version + 1 ≤ m.projected := by
            have : m.version + 1 ∈ s.pvq := List.mem_of_mem_head? (by rw [hhd]; simp)
            exact hpv (n, s) (lookup_mem hl) _ this
          refine ⟨⟨⟨?_, ?_, ?_⟩, ?_, ?_, ?_⟩, ?_, ?_, ?_, ?_⟩
          · show mi.committed ≤ mi.committing
            exact hch1.1
          · show mi.committing ≤ mi.version + 1
            exact le_trans hch1.2.1 (Nat.le_succ _)
          · show mi.version + 1 ≤ mi.projected
            rw [hv, hp]
            exact hvp
          · intro q hq e he
            show e ≤ mi.projected
            cases mem_updSessions hq with
            | inl hq1 =>
              subst hq1
              simp only at he
              rw [hp]
              exact hpv (n, s) (lookup_mem hl) e (List.mem_of_mem_tail he)
            | inr hq1 =>
              rw [hss] at hq1
              rw [hp]
              exact hpv q hq1 e he
          · exact ⟨hpend1.1, fun p hp => hpend1.2 p hp⟩
          · intro hone
            refine ⟨(hdd hone).1, ?_, (hdd hone).2⟩
            intro _
            show mi.committing < mi.version + 1
            exact Nat.lt_succ_of_le hch1.2.1
          · rw [hcd]
          · exact hcm1
          · show m.version ≤ mi.version + 1
            rw [hv]
            exact Nat.le_succ _
          · rw [hp]
      · rw [if_neg hhd] at h
        exact absurd h (by simp)
  | save w needv =>
    obtain ⟨hI1, hv, hp, hcd, _, hcm⟩ :=
      save_inv (K := K) ⟨hch, hpv, hpend, hdk⟩ (by simpa [step] using h)
    exact ⟨hI1, by rw [hcd], hcm, by rw [hv], by rw [hp]⟩
  | saveFinish =>
    simp only [step] at h
    unfold SMState.saveFinish at h
    cases hpd : m.pending with
    | nil => rw [hpd] at h; exact absurd h (by simp)
    | cons op rest =>
      rw [hpd] at h
      injection h with h
      subst h
      have hbounds := hpend.2 op (by rw [hpd]; exact List.mem_cons_self _ _)
      have hpair : rest.Pairwise (fun a b => a.version ≤ b.version) ∧
          ∀ p ∈ rest, op.version ≤ p.version := by
        have := hpend.1
        rw [hpd, List.pairwise_cons] at this
        exact ⟨this.2, this.1⟩
      obtain ⟨hc1, hc2, hc3⟩ := hch
      refine ⟨⟨⟨hbounds.2, hc2, hc3⟩, hpv, ?_, ?_⟩,
        hbounds.1, le_refl _, le_refl _, le_refl _⟩
      · refine ⟨hpair.1, ?_⟩
        intro p hp
        refine ⟨hpair.2 p hp, ?_⟩
        have : p ∈ m.pending := by rw [hpd]; exact List.mem_cons_of_mem _ hp
        exact (hpend.2 p this).2
      · intro hone
        obtain ⟨hd1, hd2, hd3⟩ := hdk hone
        refine ⟨hd1, hd2, ?_⟩
        intro p hp
        apply hd3
        rw [hpd]
        exact List.mem_cons_of_mem _ hp

theorem Inv_init (K : Nat) : Inv K init := by
  refine ⟨⟨le_refl _, le_refl _, le_refl _⟩, ?_, ⟨List.Pairwise.nil, ?_⟩, ?_⟩
  · intro p hp
    exact absurd hp (by simp [init])
  · intro p hp
    exact absurd hp (by simp [init])
  · intro _
    refine ⟨by simp [init], by simp [init], ?_⟩
    intro p hp
    exact absurd hp (by simp [init])

theorem run_inv_from {K : Nat} {ops : List Op} :
    ∀ {m0 m : SMState}, (∀ o ∈ ops, o.basic = true) → Inv K m0 →
      run K m0 ops = some m → Inv K m := by
  induction ops with
  | nil =>
    intro m0 m _ hI h
    unfold run at h
    injection h with h
    subst h
    exact hI
  | cons op ops ih =>
    intro m0 m hb hI h
    unfold run at h
    cases hs : step K m0 op with
    | none => rw [hs] at h; exact absurd h (by simp)
    | some m1 =>
      rw [hs] at h
      dsimp only at h
      exact ih (fun o ho => hb o (List.mem_cons_of_mem _ ho))
        (step_inv (hb op (List.mem_cons_self _ _)) hI hs).1 h

/-- Every state reached from the fresh map by a journal-driven trace
satisfies the invariant. -/
theorem run_inv {K : Nat} {ops : List Op} {m : SMState}
    (hb : ∀ o ∈ ops, o.basic = true) (h : run K init ops = some m) : Inv K m :=
  run_inv_from hb (Inv_init K) h

/-- The key-value pairs staged by composeSet are exactly the rendered dirty
names whose session is in an active state, with the encoded info payload. -/
theorem composeSet_mem {m : SMState} :
    ∀ {l : List EntityName} {ts : List (String × Nat)},
      composeSet m l = some ts → ∀ (k : String) (v : Nat),
        ((k, v) ∈ ts ↔ ∃ n s, n ∈ l ∧ m.sessions.lookup n = some s ∧
          activeState s.state = true ∧ k = n.render ∧ v = s.data) := by
  intro l
  induction l with
  | nil =>
    intro ts h k v
    unfold composeSet at h
    injection h with h
    subst h
    simp
  | cons n rest ih =>
    intro ts h k v
    unfold composeSet at h
    cases hl : m.sessions.lookup n with
    | none => rw [hl] at h; exact absurd h (by simp)
    | some s =>
      rw [hl] at h
      dsimp only at h
      cases hc : composeSet m rest with
      | none => rw [hc] at h; exact absurd h (by simp)
      | some tl =>
        rw [hc] at h
        dsimp only at h
        by_cases ha : activeState s.state
        · rw [if_pos ha] at h
          injection h with h
          subst h
          constructor
          · intro hmem
            rw [List.mem_cons] at hmem
            cases hmem with
            | inl hmem =>
              have hk : k = n.render := congrArg Prod.fst hmem
              have hv : v = s.data := congrArg Prod.snd hmem
              exact ⟨n, s, List.mem_cons_self _ _, hl, ha, hk, hv⟩
            | inr hmem =>
              obtain ⟨n1, s1, hn1, hl1, ha1, hk1, hv1⟩ := (ih hc k v).mp hmem
              exact ⟨n1, s1, List.mem_cons_of_mem _ hn1, hl1, ha1, hk1, hv1⟩
          · intro hx
            obtain ⟨n1, s1, hn1, hl1, ha1, hk1, hv1⟩ := hx
            by_cases hn : n1 = n
            · subst hn
              rw [hl] at hl1
              injection hl1 with hl1
              subst hl1
              subst hk1
              subst hv1
              exact List.mem_cons_self _ _
            · rw [List.mem_cons] at hn1
              cases hn1 with
              | inl hn1 => exact absurd hn1 hn
              | inr hn1 =>
                exact List.mem_cons_of_mem _
                  ((ih hc k v).mpr ⟨n1, s1, hn1, hl1, ha1, hk1, hv1⟩)
        · rw [if_neg ha] at h
          injection h with h
          subst h
          constructor
          · intro hmem
            obtain ⟨n1, s1, hn1, hl1, ha1, hk1, hv1⟩ := (ih hc k v).mp hmem
            exact ⟨n1, s1, List.mem_cons_of_mem _ hn1, hl1, ha1, hk1, hv1⟩
          · intro hx
            obtain ⟨n1, s1, hn1, hl1, ha1, hk1, hv1⟩ := hx
            by_cases hn : n1 = n
            · subst hn
              rw [hl] at hl1
              injection hl1 with hl1
              subst hl1
              exact absurd ha1 ha
            · rw [List.mem_cons] at hn1
              cases hn1 with
              | inl hn1 => exact absurd hn1 hn
              | inr hn1 =>
                exact (ih hc k v).mpr ⟨n1, s1, hn1, hl1, ha1, hk1, hv1⟩

theorem lookupS_cons (n : EntityName) (p : EntityName × Session) (rest : Sessions) :
    lookupS n (p :: rest) = if p.1 = n then some p.2 else lookupS n rest := rfl

theorem lookup_eq_lookupS (n : EntityName) :
    ∀ l : Sessions, l.lookup n = lookupS n l := by
  intro l
  induction l with
  | nil => rfl
  | cons p rest ih =>
    cases p with
    | mk k v =>
      rw [lookupS_cons]
      by_cases h : k = n
      · have hb : (n == k) = true := by rw [h]; exact beq_self_eq_true n
        rw [List.lookup_cons, hb, if_pos h]
      · have hb : (n == k) = false := beq_eq_false_iff_ne.mpr (fun he => h he.symm)
        rw [List.lookup_cons, hb, if_neg h]
        exact ih

theorem lookupS_updSessions (n x : EntityName) (s : Session) :
    ∀ l : Sessions, lookupS x (updSessions n s l) =
      if x = n then (lookupS n l).map (fun _ => s) else lookupS x l := by
  intro l
  induction l with
  | nil => by_cases hx : x = n <;> simp [updSessions, lookupS, hx]
  | cons p rest ih =>
    cases p with
    | mk k v =>
      show lookupS x ((if k = n then (n, s) else (k, v)) :: updSessions n s rest) = _
      by_cases hk : k = n
      · subst hk
        rw [if_pos rfl]
        by_cases hx : x = k
        · subst hx
          simp [lookupS_cons, updSessions]
        · rw [lookupS_cons, lookupS_cons, lookupS_cons]
          rw [if_neg (fun he => hx he.symm), if_neg hx, if_neg (fun he => hx he.symm), ih,
            if_neg hx]
      · rw [if_neg hk]
        by_cases hx : x = n
        · subst hx
          rw [lookupS_cons, lookupS_cons]
          rw [if_pos rfl, if_neg hk, if_neg hk, ih, if_pos rfl]
        · rw [if_neg hx, lookupS_cons, lookupS_cons]
          by_cases hxk : k = x
          · rw [if_pos hxk, if_pos hxk]
          · rw [if_neg hxk, if_neg hxk, ih, if_neg hx]

theorem lookup_updSessions (n x : EntityName) (s : Session) (l : Sessions) :
    (updSessions n s l).lookup x =
      if x = n then (l.lookup n).map (fun _ => s) else l.lookup x := by
  rw [lookup_eq_lookupS, lookup_eq_lookupS, lookup_eq_lookupS, lookupS_updSessions]

theorem lookupS_append_none (n : EntityName) :
    ∀ {l1 : Sessions} (l2 : Sessions), lookupS n l1 = none →
      lookupS n (l1 ++ l2) = lookupS n l2 := by
  intro l1
  induction l1 with
  | nil => intro l2 _; rfl
  | cons p rest ih =>
    intro l2 h
    rw [lookupS_cons] at h
    rw [List.cons_append, lookupS_cons]
    by_cases hp : p.1 = n
    · rw [if_pos hp] at h
      cases h
    · rw [if_neg hp] at h
      rw [if_neg hp]
      exact ih l2 h

theorem lookupS_append_some (n : EntityName) {s : Session} :
    ∀ {l1 : Sessions} (l2 : Sessions), lookupS n l1 = some s →
      lookupS n (l1 ++ l2) = some s := by
  intro l1
  induction l1 with
  | nil => intro l2 h; cases h
  | cons p rest ih =>
    intro l2 h
    rw [lookupS_cons] at h
    rw [List.cons_append, lookupS_cons]
    by_cases hp : p.1 = n
    · rw [if_pos hp] at h
      rw [if_pos hp]
      exact h
    · rw [if_neg hp] at h
      rw [if_neg hp]
      exact ih l2 h

/-- Looking up any other name is unchanged by one decode_values step. -/
theorem lookup_decodeStep_ne {l : Sessions} {m n : EntityName} {t : Session}
    (hne : n ≠ m) :
    (updSessions m t (getOrAddSession l m).2).lookup n = l.lookup n := by
  rw [lookup_eq_lookupS, lookup_eq_lookupS, lookupS_updSessions, if_neg hne]
  unfold getOrAddSession
  rw [lookup_eq_lookupS]
  cases hl : lookupS m l with
  | some s => rfl
  | none =>
    dsimp only
    cases hx : lookupS n l with
    | some u => exact lookupS_append_some n _ hx
    | none =>
      rw [lookupS_append_none n _ hx, lookupS_cons, if_neg (fun he => hne he.symm)]
      rfl

/-- Looking up the stepped name yields exactly the freshly written session. -/
theorem lookup_decodeStep_self {l : Sessions} {m : EntityName} {t : Session} :
    (updSessions m t (getOrAddSession l m).2).lookup m = some t := by
  rw [lookup_eq_lookupS, lookupS_updSessions, if_pos rfl]
  unfold getOrAddSession
  rw [lookup_eq_lookupS]
  cases hl : lookupS m l with
  | some s =>
    dsimp only
    rw [hl]
    rfl
  | none =>
    dsimp only
    rw [lookupS_append_none m _ hl, lookupS_cons, if_pos rfl]
    rfl

theorem decodeValues_preserve {n : EntityName} :
    ∀ {vals : List (String × Nat)} {l out : Sessions} {t : Session},
      decodeValues l vals = .ok out → l.lookup n = some t →
      ∃ t1, out.lookup n = some t1 ∧ (t.state = .opened → t1.state = .opened) := by
  intro vals
  induction vals with
  | nil =>
    intro l out t h hl
    unfold decodeValues at h
    injection h with h
    subst h
    exact ⟨t, hl, fun hx => hx⟩
  | cons kv rest ih =>
    intro l out t h hl
    cases kv with
    | mk k v =>
      unfold decodeValues at h
      cases hp : EntityName.parse k with
      | none => rw [hp] at h; exact absurd h (by simp)
      | some n0 =>
        rw [hp] at h
        dsimp only at h
        by_cases hne : n = n0
        · subst hne
          set s0 := (getOrAddSession l n).1 with hs0
          have hlk : (getOrAddSession l n).1 = t := by
            unfold getOrAddSession
            rw [hl]
          set s1 := if s0.state = .closed then s0.setStateRaw .opened else s0 with hs1
          have hself := lookup_decodeStep_self
            (l := l) (m := n) (t := { s1 with data := v })
          obtain ⟨t1, ht1, himp⟩ := ih h hself
          refine ⟨t1, ht1, ?_⟩
          intro hop
          apply himp
          show ({ s1 with data := v }).state = .opened
          rw [hs1, hs0, hlk]
          rw [if_neg (by rw [hop]; intro hx; cases hx)]
          exact hop
        · have hstep := lookup_decodeStep_ne
            (l := l) (m := n0)
            (t := { (if (getOrAddSession l n0).1.state = .closed
                     then (getOrAddSession l n0).1.setStateRaw .opened
                     else (getOrAddSession l n0).1) with data := v }) hne
          rw [← hstep] at hl
          exact ih h hl

/-- A key that fails to parse makes decode_values raise malformed_input. -/
theorem decodeValues_error {vals : List (String × Nat)} :
    ∀ {l : Sessions}, (∃ kv ∈ vals, EntityName.parse kv.1 = none) →
      decodeValues l vals = .error .malformedInput := by
  induction vals with
  | nil =>
    intro l h
    obtain ⟨kv, hkv, _⟩ := h
    cases hkv
  | cons kv0 rest ih =>
    intro l h
    cases kv0 with
    | mk k v =>
      unfold decodeValues
      cases hp : EntityName.parse k with
      | none => rfl
      | some n0 =>
        dsimp only
        apply ih
        obtain ⟨kv1, hkv1, hp1⟩ := h
        rw [List.mem_cons] at hkv1
        cases hkv1 with
        | inl he =>
          subst he
          rw [hp] at hp1
          cases hp1
        | inr he => exact ⟨kv1, he, hp1⟩

/-- When every key parses, decode_values succeeds, every parsed name has a
session in the result, and a name that was absent from the input table comes
out in the open state. -/
theorem decodeValues_ok :
    ∀ {vals : List (String × Nat)} {l : Sessions},
      (∀ kv ∈ vals, (EntityName.parse kv.1).isSome = true) →
      ∃ out, decodeValues l vals = .ok out ∧
        ∀ kv ∈ vals, ∃ n, EntityName.parse kv.1 = some n ∧
          ∃ s, out.lookup n = some s ∧ (l.lookup n = none → s.state = .opened) := by
  intro vals
  induction vals with
  | nil =>
    intro l _
    refine ⟨l, rfl, ?_⟩
    intro kv hkv
    cases hkv
  | cons kv0 rest ih =>
    intro l hall
    cases kv0 with
    | mk k v =>
      have hp0 : (EntityName.parse k).isSome = true :=
        hall (k, v) (List.mem_cons_self _ _)
      cases hp : EntityName.parse k with
      | none => rw [hp] at hp0; cases hp0
      | some n0 =>
        set s0 := (getOrAddSession l n0).1 with hs0
        set s1 := if s0.state = .closed then s0.setStateRaw .opened else s0 with hs1
        set s2 : Session := { s1 with data := v } with hs2
        set l2 := updSessions n0 s2 (getOrAddSession l n0).2 with hl2
        obtain ⟨out, hout, hrest⟩ :=
          ih (l := l2) (fun kv hkv => hall kv (List.mem_cons_of_mem _ hkv))
        have hfinal : decodeValues l ((k, v) :: rest) = .ok out := by
          unfold decodeValues
          rw [hp]
          dsimp only
          rw [← hs0, ← hs1, ← hs2, ← hl2]
          exact hout
        have hself : l2.lookup n0 = some s2 := by
          rw [hl2, hs2]
          exact lookup_decodeStep_self
        have hnew : l.lookup n0 = none → s2.state = .opened := by
          intro hnone
          have hga : s0 = { name := n0 } := by
            rw [hs0]
            unfold getOrAddSession
            rw [hnone]
          have h2s : s2.state = s1.state := by rw [hs2]
          rw [h2s, hs1, hga]
          rfl
        obtain ⟨t1, ht1, htop⟩ := decodeValues_preserve hout hself
        refine ⟨out, hfinal, ?_⟩
        intro kv hkv
        rw [List.mem_cons] at hkv
        cases hkv with
        | inl he =>
          subst he
          exact ⟨n0, hp, t1, ht1, fun hnone => htop (hnew hnone)⟩
        | inr he =>
          obtain ⟨n, hpn, s, hs, himp⟩ := hrest kv he
          by_cases hne : n = n0
          · subst hne
            exact ⟨n, hpn, t1, ht1, fun hnone => htop (hnew hnone)⟩
          · refine ⟨n, hpn, s, hs, ?_⟩
            intro hnone
            apply himp
            rw [hl2, hs2]
            rw [lookup_decodeStep_ne hne]
            exact hnone


/-- C1: for every state reachable by add_session, mark_dirty, remove_session,
save and load, dirty_sessions and null_sessions are disjoint (inserting a
name into one removes it from the other).  The code falsifies this: after
add, mark_dirty, remove_session and a re-add plus mark_dirty of the same
entity name, the name sits in both sets, because neither add_session nor
_mark_dirty ever erases the name from null_sessions. -/
theorem C1_dirty_null_overlap :
    ∃ m, run 1024 init traceRemoveRecreateDirty = some m ∧
      cn1 ∈ m.dirty ∧ cn1 ∈ m.nullSessions :=
  ⟨_, rfl, by decide, by decide⟩

/-- C2: null_sessions should contain no key of the live session table, and
after add, mark_dirty, remove_session, re-add of the same name the name
should be in neither overlay.  The code falsifies this: after the re-add the
name is still in null_sessions while it is again a live key, because
add_session does not erase it. -/
theorem C2_null_live_key :
    ∃ m, run 1024 init traceRemoveRecreate = some m ∧
      cn1 ∈ m.nullSessions ∧ (m.sessions.lookup cn1).isSome = true :=
  ⟨_, rfl, by decide, by decide⟩

/-- C3 counterexample: the four counters are not all non-decreasing, and the
full chain does not always hold.  wipe_ino_prealloc drops projected from
four to two; after it, stale projected versions let version overtake
projected, and wipe then drops version from four to three;
replay_advance_version and replay_dirty_session also drop projected. -/
theorem C3_counterexample :
    ((run 1024 init (traceCounters.take 9)).map SMState.projected = some 4 ∧
     (run 1024 init (traceCounters.take 10)).map SMState.projected = some 2) ∧
    ((run 1024 init (traceCounters.take 12)).map
        (fun m => decide (m.projected < m.version)) = some true) ∧
    ((run 1024 init (traceCounters.take 12)).map SMState.version = some 4 ∧
     (run 1024 init traceCounters).map SMState.version = some 3) ∧
    ((run 1024 init (traceReplayAdvance.take 3)).map SMState.projected = some 2 ∧
     (run 1024 init traceReplayAdvance).map SMState.projected = some 1) ∧
    ((run 1024 init (traceReplayDirty.take 3)).map SMState.projected = some 2 ∧
     (run 1024 init traceReplayDirty).map SMState.projected = some 1) := by
  decide

/-- C3 amended: restricted to the journal-driven operations mark_projected,
mark_dirty (observing the projected-queue discipline), save and _save_finish
(plus add_session of fresh sessions and remove_session), each of the four
counters committed, committing, version, projected is non-decreasing across
every operation, and committed ≤ committing ≤ version ≤ projected holds after
every operation; the replay and wipe entry points excluded here are exactly
the ones the counterexample shows breaking both properties. -/
theorem C3_basic_monotone (K : Nat) (ops : List Op) (op : Op) (m m1 : SMState)
    (hops : ∀ o ∈ ops, o.basic = true) (hop : op.basic = true)
    (h1 : run K init ops = some m) (h2 : step K m op = some m1) :
    (m.committed ≤ m1.committed ∧ m.committing ≤ m1.committing ∧
     m.version ≤ m1.version ∧ m.projected ≤ m1.projected) ∧
    (m1.committed ≤ m1.committing ∧ m1.committing ≤ m1.version ∧
     m1.version ≤ m1.projected) := by
  obtain ⟨hI1, h3, h4, h5, h6⟩ := step_inv hop (run_inv hops h1) h2
  exact ⟨⟨h3, h4, h5, h6⟩, hI1.1⟩

/-- Witness for the amended C3 theorem at a concrete step. -/
theorem C3_basic_monotone_witness :
    ((init.committed ≤ addedOne.committed ∧ init.committing ≤ addedOne.committing ∧
      init.version ≤ addedOne.version ∧ init.projected ≤ addedOne.projected) ∧
     (addedOne.committed ≤ addedOne.committing ∧
      addedOne.committing ≤ addedOne.version ∧
      addedOne.version ≤ addedOne.projected)) :=
  C3_basic_monotone 2 [] (.add (freshSession cn1)) init addedOne
    (by intro o ho; cases ho) (by decide) rfl (by decide)

/-- C4 counterexample: loading an object holding header version seven and
four session keys with a batch size of two performs three read operations,
not the two the claim states: both full batches trigger a continuation, and
the third read returns the empty final batch. -/
theorem C4_counterexample :
    (loadModern 2 7 store4).map LoadResult.reads = some 3 ∧
    (loadModern 2 7 store4).map LoadResult.reads ≠ some 2 := by
  decide

/-- C4 amended: a continuation read is issued exactly when the decoded batch
holds exactly K entries, starting after the last key of that batch;
consequently the scenario performs exactly three reads (with start keys
empty, client.2 and client.4), ends with version seven, all four sessions
open, the open by_state list of length four, and the load waiters released
exactly once. -/
theorem C4_three_reads :
    ∃ r, loadModern 2 7 store4 = some r ∧ r.reads = 3 ∧
      r.startKeys = ["", "client.2", "client.4"] ∧ r.version = 7 ∧
      r.released = 1 ∧ r.sessions.length = 4 ∧
      (∀ p ∈ r.sessions, p.2.state = .opened) ∧
      ((r.byState.lookup SState.opened).getD []).length = 4 :=
  ⟨_, rfl, by decide, by decide, by decide, by decide, by decide, by decide,
    by decide⟩

/-- C5: every session reconstructed by decode_legacy should get
last_cap_renew set to the current time in both legacy variants.  The code
falsifies this for the sentinel-framed variant: the current time captured at
the top of decode_legacy is only written in the old count-prefixed branch,
so a sentinel-variant session comes out with last_cap_renew untouched while
an old-format session is stamped. -/
theorem C5_sentinel_no_renew :
    (∃ s, (decodeLegacyStore 42 [] (.sentinel 3 [(cn1, 7)])).2.lookup cn1 = some s ∧
       s.lastCapRenew = none ∧ s.state = .opened) ∧
    (∃ s, (decodeLegacyStore 42 [] (.oldFormat 3 1 [(cn1, 7)])).2.lookup cn1 = some s ∧
       s.lastCapRenew = some 42) :=
  ⟨⟨_, rfl, by decide, by decide⟩, ⟨_, rfl, by decide⟩⟩

/-- C6: when needv is positive and committing already covers it, save files
the completion under commit_waiters at the committing version and returns
with nothing else changed (no operation composed, committing and both
overlays untouched), and the branch asserts that committing exceeds
committed, failing when it does not. -/
theorem C6_inflight_collapse (m : SMState) (w needv : Nat)
    (h1 : 0 < needv) (h2 : needv ≤ m.committing) :
    (m.committed < m.committing →
      m.save w needv =
        some { m with commitWaiters := enqueueWaiter m.committing w m.commitWaiters }) ∧
    (¬ m.committed < m.committing → m.save w needv = none) := by
  constructor
  · intro hc
    unfold SMState.save
    rw [if_pos ⟨h1, h2⟩, if_pos hc]
  · intro hc
    unfold SMState.save
    rw [if_pos ⟨h1, h2⟩, if_neg hc]

/-- Witness for the collapse branch of save at a concrete state. -/
theorem C6_witness :
    (inflightState.committed < inflightState.committing →
      inflightState.save 7 2 =
        some { inflightState with
          commitWaiters := enqueueWaiter inflightState.committing 7
            inflightState.commitWaiters }) ∧
    (¬ inflightState.committed < inflightState.committing →
      inflightState.save 7 2 = none) :=
  C6_inflight_collapse inflightState 7 2 (by decide) (by decide)

/-- C7: a composing save clears both overlays, stages key upserts exactly for
the dirty names whose session state is open, closing, stale or killing,
stages key removals exactly for the null_sessions names, and a completing
save sets committed to the version recorded at composition time, releases
the waiters filed under that version and erases them. -/
theorem C7_compose_and_finish (m : SMState) (w needv : Nat) (m1 : SMState)
    (mf : SMState) (op : PendingOp) (rest : List PendingOp)
    (hbr : ¬(0 < needv ∧ needv ≤ m.committing))
    (h : m.save w needv = some m1) (hpd : mf.pending = op :: rest) :
    (m1.dirty = [] ∧ m1.nullSessions = []) ∧
    (∃ ts, m1.pending = m.pending ++
        [⟨m.version, m.dirty, ts, m.nullSessions.map EntityName.render⟩] ∧
      ∀ (k : String) (v : Nat),
        ((k, v) ∈ ts ↔ ∃ n s, n ∈ m.dirty ∧ m.sessions.lookup n = some s ∧
          activeState s.state = true ∧ k = n.render ∧ v = s.data)) ∧
    mf.saveFinish = some { mf with
      pending := rest,
      committed := op.version,
      fired := mf.fired ++ (mf.commitWaiters.lookup op.version).getD [],
      commitWaiters := mf.commitWaiters.filter (fun p => p.1 != op.version) } := by
  obtain ⟨ts, hcs, hm1⟩ := save_composing hbr h
  subst hm1
  refine ⟨⟨rfl, rfl⟩, ⟨ts, rfl, composeSet_mem hcs⟩, ?_⟩
  unfold SMState.saveFinish
  rw [hpd]

/-- Witness for the composing save and its completion at a concrete state. -/
theorem C7_witness :
    ((composedState.dirty = [] ∧ composedState.nullSessions = []) ∧
     (∃ ts, composedState.pending = composeState.pending ++
         [⟨composeState.version, composeState.dirty, ts,
           composeState.nullSessions.map EntityName.render⟩] ∧
       ∀ (k : String) (v : Nat),
         ((k, v) ∈ ts ↔ ∃ n s, n ∈ composeState.dirty ∧
           composeState.sessions.lookup n = some s ∧
           activeState s.state = true ∧ k = n.render ∧ v = s.data)) ∧
     composedState.saveFinish = some { composedState with
       pending := [],
       committed := composedOp.version,
       fired := composedState.fired ++
         (composedState.commitWaiters.lookup composedOp.version).getD [],
       commitWaiters := composedState.commitWaiters.filter
         (fun p => p.1 != composedOp.version) }) :=
  C7_compose_and_finish composeState 7 0 composedState composedState composedOp []
    (by decide) (by decide) (by decide)

/-- C8: decode_values with every key parsing yields a table in which each
parsed name has an existing-or-new session and a name absent from the input
table comes out promoted to the open state, while any input containing an
unparseable key makes decode_values raise the malformed-input decode error
rather than return a value. -/
theorem C8_decode_values (vals : List (String × Nat)) (l : Sessions) :
    ((∀ kv ∈ vals, (EntityName.parse kv.1).isSome = true) →
      ∃ out, decodeValues l vals = .ok out ∧
        ∀ kv ∈ vals, ∃ n, EntityName.parse kv.1 = some n ∧
          ∃ s, out.lookup n = some s ∧ (l.lookup n = none → s.state = .opened)) ∧
    ((∃ kv ∈ vals, EntityName.parse kv.1 = none) →
      decodeValues l vals = .error .malformedInput) :=
  ⟨fun h => decodeValues_ok h, fun h => decodeValues_error h⟩

/-- Witness for decode_values on a concrete two-key map. -/
theorem C8_witness :
    ∃ out, decodeValues [] valsGood = .ok out ∧
      ∀ kv ∈ valsGood, ∃ n, EntityName.parse kv.1 = some n ∧
        ∃ s, out.lookup n = some s ∧
          (([] : Sessions).lookup n = none → s.state = .opened) :=
  (C8_decode_values valsGood []).1 (by decide)

/-- C9: _mark_dirty at or above the keys-per-op cap first performs a
preemptive save with the no-op completion and needv equal to version, and
only then inserts the name; consequently, along every journal-driven trace,
every composed store operation staged at most K dirty names and the staged
dirty set never exceeds K. -/
theorem C9_preemptive_save (K : Nat) (ops : List Op) (mf m m2 : SMState)
    (n : EntityName) (hK : 1 ≤ K) (hops : ∀ o ∈ ops, o.basic = true)
    (hrun : run K init ops = some mf)
    (hcap : K ≤ m.dirty.length) (hmd : m.markDirtyInner K n = some m2) :
    (∃ m1, m.save 0 m.version = some m1 ∧
      m2 = { m1 with dirty := insertName n m1.dirty }) ∧
    mf.dirty.length ≤ K ∧ ∀ p ∈ mf.pending, p.stagedDirty.length ≤ K := by
  constructor
  · unfold SMState.markDirtyInner at hmd
    rw [if_pos hcap] at hmd
    cases hs : m.save 0 m.version with
    | none => rw [hs] at hmd; exact absurd hmd (by simp)
    | some m1 =>
      rw [hs] at hmd
      simp only [Option.map_some'] at hmd
      injection hmd with hmd
      exact ⟨m1, rfl, hmd.symm⟩
  · have hI := run_inv hops hrun
    obtain ⟨hd1, _, hd3⟩ := hI.2.2.2 hK
    exact ⟨hd1, hd3⟩

/-- Witness: three rapid mark_dirty calls at a cap of two, plus the
save-then-insert decomposition of _mark_dirty on a concrete state. -/
theorem C9_witness :
    ((∃ m1, twoDirtyState.save 0 twoDirtyState.version = some m1 ∧
      twoDirtyAfter = { m1 with dirty := insertName cn3 m1.dirty }) ∧
    threeDirtyResult.dirty.length ≤ 2 ∧
    ∀ p ∈ threeDirtyResult.pending, p.stagedDirty.length ≤ 2) :=
  C9_preemptive_save 2 traceThreeDirty threeDirtyResult twoDirtyState twoDirtyAfter
    cn3 (by decide) (by decide) (by decide) (by decide) (by decide)

/-- C10: set_state with the session current state is a no-op apart from its
return value: the map (hence the session state, its by_state position and
its state_seq) is unchanged and the un-bumped state_seq is returned. -/
theorem C10_set_state_noop (m : SMState) (n : EntityName) (s : Session)
    (h : m.sessions.lookup n = some s) :
    m.setState n s.state = some (s.stateSeq, m) := by
  unfold SMState.setState
  rw [h]
  dsimp only
  rw [if_pos rfl]

/-- Witness for the no-op set_state at a concrete one-session map. -/
theorem C10_witness :
    oneSessionState.setState cn1 staleSession.state =
      some (staleSession.stateSeq, oneSessionState) :=
  C10_set_state_noop oneSessionState cn1 staleSession (by decide)

end SessionMapModel
